import Mathlib

/-!
Verification of the extended-Brainfuck compiler/executor (src/src/main.rs).

The development shallowly embeds the program's data model and operations:
the per-character instruction decoder (`tryFromChar`), the symbol filter and
the peephole rewrite passes of `main` (`filterSrc`, `replaceTriple`,
`replaceScan`), the one-pass assembler with jump resolution and fusion
(`asmStep`, `assemble`), and the fetch-decode-execute loop over the
fixed-size byte tape (`execIns`, `run`).  Machine integers are modelled as
`Int`/`Nat` with explicit wrapping where the Rust code wraps (`asU8`,
`intToUsize`); fallible operations return `Except`/`Option`; the two inner
loops (the executor's main loop and the scan loop) take explicit fuel.
-/

set_option maxRecDepth 100000

deriving instance DecidableEq for Except

namespace Rbf

/-- The `BfCommand` enum of the source. -/
inductive BfCommand where
  | incRef
  | incVal
  | jumpBack
  | jumpTo
  | scanTo
  | setVal
  | stdIn
  | stdOut
  deriving DecidableEq, Repr

/-- The `BfInstruction` struct: a command, a signed value and a signed offset. -/
structure BfInstruction where
  cmd : BfCommand
  val : Int
  offset : Int
  deriving DecidableEq, Repr

/-- `BfInstruction::new`: offset starts at 0. -/
def BfInstruction.new (cmd : BfCommand) (val : Int) : BfInstruction :=
  ⟨cmd, val, 0⟩

/-- `char::is_ascii_lowercase`. -/
def isAsciiLowercase (c : Char) : Bool :=
  97 ≤ c.toNat && c.toNat ≤ 122

/-- `char::is_ascii_uppercase`. -/
def isAsciiUppercase (c : Char) : Bool :=
  65 ≤ c.toNat && c.toNat ≤ 90

/-- `TryFrom<char> for BfInstruction`.  Lowercase letters become `ScanTo`
with value `-(code - 97)`, uppercase letters `ScanTo` with value
`code - 65`; anything unrecognized is an error (and is skipped by the
assembly loop's `if let Ok`). -/
def tryFromChar (c : Char) : Except String BfInstruction :=
  if c = '<' then .ok (.new .incRef (-1))
  else if c = '>' then .ok (.new .incRef 1)
  else if c = '+' then .ok (.new .incVal 1)
  else if c = '-' then .ok (.new .incVal (-1))
  else if c = '[' then .ok (.new .jumpTo (-1))
  else if c = ']' then .ok (.new .jumpBack (-1))
  else if c = '.' then .ok (.new .stdOut 0)
  else if c = ',' then .ok (.new .stdIn 0)
  else if c = '=' then .ok (.new .setVal 0)
  else if isAsciiLowercase c then .ok (.new .scanTo (0 - ((c.toNat : Int) - 97)))
  else if isAsciiUppercase c then .ok (.new .scanTo ((c.toNat : Int) - 65))
  else .error "Unknown Instruction"

/-- Membership in the character class of the filter regex.  The class is
written in the source with alternation-style pipes inside the brackets, so
its members are the eight command characters and the literal pipe. -/
def keptChar (c : Char) : Bool :=
  c = '+' || c = '|' || c = '-' || c = '<' || c = '>' ||
    c = '.' || c = ',' || c = '[' || c = ']'

/-- A single character matches the filter regex exactly when it is outside
the bracketed class. -/
def nonSymbolMatch (c : Char) : Bool :=
  ! keptChar c

/-- The symbol filter of `main`: `replace_all` with the negated character
class and an empty replacement deletes every matching (non-class)
character. -/
def filterSrc (text : List Char) : List Char :=
  text.filter (fun c => ! nonSymbolMatch c)

/-- Fueled worker for `replaceTriple`; one unit of fuel is spent per
position examined, so fuel equal to the list length always suffices. -/
def replaceTripleGo (a b c r : Char) : Nat → List Char → List Char
  | 0, l => l
  | _ + 1, [] => []
  | _ + 1, [x] => [x]
  | _ + 1, [x, y] => [x, y]
  | fuel + 1, x :: y :: z :: rest =>
    if x = a ∧ y = b ∧ z = c then r :: replaceTripleGo a b c r fuel rest
    else x :: replaceTripleGo a b c r fuel (y :: z :: rest)

/-- `replace_all` with a three-character literal pattern `a b c` and a
one-character replacement `r`: leftmost-first, non-overlapping, with no
rescan of replaced text.  Embeds the zero-set rewrites of `main`. -/
def replaceTriple (a b c r : Char) (l : List Char) : List Char :=
  replaceTripleGo a b c r l.length l

/-- Length of the maximal run of the character `c` at the head of a list. -/
def runLen (c : Char) : List Char → Nat
  | [] => 0
  | x :: rest => if x = c then runLen c rest + 1 else 0

/-- Fueled worker for `replaceScan`; one unit of fuel is spent per
position examined, so fuel equal to the list length always suffices. -/
def replaceScanGo (inner starter : Char) : Nat → List Char → List Char
  | 0, l => l
  | _ + 1, [] => []
  | fuel + 1, x :: rest =>
    if x = '[' then
      let m := runLen inner rest
      if 1 ≤ m ∧ m ≤ 27 ∧ rest.get? m = some ']' then
        Char.ofNat (starter.toNat + m) :: replaceScanGo inner starter fuel (rest.drop (m + 1))
      else
        '[' :: replaceScanGo inner starter fuel rest
    else
      x :: replaceScanGo inner starter fuel rest

/-- `replace_all2` with the scan-idiom pattern: an open bracket, 1 to 27
repetitions of `inner`, and a close bracket, replaced by the single
character whose code is `starter`'s code plus the repetition count.  The
regex matches at an open bracket exactly when the maximal run of `inner`
after it has length 1 to 27 and is followed immediately by a close
bracket (a longer run can never backtrack into a match); matching is
leftmost-first and non-overlapping. -/
def replaceScan (inner starter : Char) (l : List Char) : List Char :=
  replaceScanGo inner starter l.length l

/-- The four rewrite passes of `main` when `args.level > 0`, in source
order. -/
def optimize (text : List Char) : List Char :=
  replaceScan '>' 'A'
    (replaceScan '<' 'a'
      (replaceTriple '[' '-' ']' '='
        (replaceTriple '[' '+' ']' '=' text)))

/-- Assembler state: the instruction vector and the jump stack (head =
top of stack, mirroring `Vec::push`/`Vec::pop` at the vector's end). -/
abbrev AsmState := List BfInstruction × List Nat

/-- The push-or-fuse step of the assembly loop: when `args.level > 1` and
the decoded instruction is `IncRef`/`IncVal` with the same command as the
most recently emitted instruction, add value and offset into that
instruction instead of appending. -/
def pushFuse (level : Nat) (ins : List BfInstruction) (instr : BfInstruction) :
    List BfInstruction :=
  if 1 < level ∧ 0 < ins.length ∧ (instr.cmd = .incRef ∨ instr.cmd = .incVal) then
    match ins.get? (ins.length - 1) with
    | some last =>
      if last.cmd = instr.cmd then
        ins.set (ins.length - 1) ⟨last.cmd, last.val + instr.val, last.offset + instr.offset⟩
      else ins ++ [instr]
    | none => ins ++ [instr]
  else ins ++ [instr]

/-- One iteration of the assembly loop of `main`: decode the character
(skipping decode failures), resolve a close bracket against the jump stack
(the `unwrap` panic on an empty stack is the unmatched-close failure,
aborting with no program), push an open bracket's index, then push or fuse.
Note that the loop performs no end-of-stream check on the jump stack. -/
def asmStep (level : Nat) (st : AsmState) (c : Char) : Except String AsmState :=
  match tryFromChar c with
  | .error _ => .ok st
  | .ok instr =>
    if instr.cmd = .jumpBack then
      match st.2 with
      | [] => .error "UnmatchedCloseBracket"
      | x :: jrest =>
        .ok (st.1.set x (BfInstruction.new .jumpTo (st.1.length : Int)) ++
              [⟨.jumpBack, (x : Int), instr.offset⟩], jrest)
    else
      .ok (pushFuse level st.1 instr,
           if instr.cmd = .jumpTo then st.1.length :: st.2 else st.2)

/-- The whole assembly loop, returning the final instruction vector and
jump stack. -/
def assembleState (level : Nat) (cs : List Char) : Except String AsmState :=
  cs.foldlM (asmStep level) ([], [])

/-- Assembly as the program it produces. -/
def assemble (level : Nat) (cs : List Char) : Except String (List BfInstruction) :=
  (assembleState level cs).map (·.1)

/-- The front end of `main`: filter, then (for `level > 0`) the rewrite
passes, then assembly. -/
def compile (level : Nat) (src : List Char) : Except String (List BfInstruction) :=
  assemble level (if 0 < level then optimize (filterSrc src) else filterSrc src)

/-- `vec![0; u16::MAX.into()]`: the tape capacity. -/
def tapeLen : Nat := 65535

/-- Run-time failures: the explicit negative-pointer panic of `IncRef`,
and the implicit index-out-of-bounds panic of any tape access at or
beyond the capacity (a negative index cast `as usize` also lands out of
bounds). -/
inductive RtError where
  | invalidAddress
  | outOfBounds
  deriving DecidableEq, Repr

/-- Executor state.  The tape is a function defined on addresses below
`tapeLen`; `inputQueue` holds the pre-loaded input in original order
(the source stores it reversed in a `Vec` and pops from the end);
`stdinBytes` are the bytes the live input source still has (an empty list
is end of input: `read` then succeeds reading zero bytes and the buffer
keeps its zero). -/
structure ExecState where
  mem : Nat → Nat
  memPtr : Int
  insPtr : Nat
  inputQueue : List Char
  stdinBytes : List Nat
  output : List Nat

/-- Result of a fueled run: normal value, run-time failure, or fuel
exhausted. -/
inductive RunRes (α : Type) where
  | ok (a : α)
  | fail (e : RtError)
  | more
  deriving DecidableEq, Repr

/-- Map over the normal result. -/
def mapRes (f : α → β) : RunRes α → RunRes β
  | .ok a => .ok (f a)
  | .fail e => .fail e
  | .more => .more

/-- Read `memory[a as usize]`: defined only inside the tape. -/
def readCell (mem : Nat → Nat) (a : Int) : Option Nat :=
  if 0 ≤ a ∧ a < (tapeLen : Int) then some (mem a.toNat) else none

/-- Write `memory[a as usize] = v`: defined only inside the tape. -/
def writeCell (mem : Nat → Nat) (a : Int) (v : Nat) : Option (Nat → Nat) :=
  if 0 ≤ a ∧ a < (tapeLen : Int) then
    some (fun b => if b = a.toNat then v else mem b)
  else none

/-- `as u8` on a signed value: the low byte, in `[0, 256)`. -/
def asU8 (v : Int) : Nat := (v % 256).toNat

/-- `as usize` on a signed value: two's-complement reinterpretation. -/
def intToUsize (v : Int) : Nat := (v % (2 ^ 64)).toNat

/-- The `ScanTo` inner loop of the executor: starting from a local stride
accumulator of 0, repeatedly test the cell at `base + acc` and add `v` to
the accumulator until the cell is zero; the result is the final
accumulator. -/
def scanLoop (mem : Nat → Nat) (base v : Int) : Nat → Int → RunRes Int
  | 0, _ => .more
  | fuel + 1, acc =>
    match readCell mem (base + acc) with
    | none => .fail .outOfBounds
    | some cell =>
      if cell = 0 then .ok acc else scanLoop mem base v fuel (acc + v)

/-- One instruction dispatch of the executor, excluding the unconditional
instruction-pointer increment that follows it.  Each arm mirrors the
corresponding `match` arm of `main`; in particular `incVal` reads the cell
at `mem_ptr + offset` but writes the sum back to the cell at `mem_ptr`,
exactly as the source does. -/
def execIns (ins : BfInstruction) (fuel : Nat) (st : ExecState) : RunRes ExecState :=
  match ins.cmd with
  | .incRef =>
    let p := st.memPtr + ins.val
    if p < 0 then .fail .invalidAddress else .ok { st with memPtr := p }
  | .incVal =>
    match readCell st.mem (st.memPtr + ins.offset) with
    | none => .fail .outOfBounds
    | some cell =>
      match writeCell st.mem st.memPtr (asU8 ((cell : Int) + ins.val)) with
      | none => .fail .outOfBounds
      | some m => .ok { st with mem := m }
  | .jumpBack =>
    match readCell st.mem st.memPtr with
    | none => .fail .outOfBounds
    | some cell =>
      if cell ≠ 0 then .ok { st with insPtr := intToUsize ins.val } else .ok st
  | .jumpTo =>
    match readCell st.mem st.memPtr with
    | none => .fail .outOfBounds
    | some cell =>
      if cell = 0 then .ok { st with insPtr := intToUsize ins.val } else .ok st
  | .stdIn =>
    match st.inputQueue with
    | c :: qrest =>
      match writeCell st.mem (st.memPtr + ins.offset) (c.toNat % 256) with
      | none => .fail .outOfBounds
      | some m => .ok { st with mem := m, inputQueue := qrest }
    | [] =>
      match st.stdinBytes with
      | b :: srest =>
        match writeCell st.mem (st.memPtr + ins.offset) (b % 256) with
        | none => .fail .outOfBounds
        | some m => .ok { st with mem := m, stdinBytes := srest }
      | [] =>
        match writeCell st.mem (st.memPtr + ins.offset) 0 with
        | none => .fail .outOfBounds
        | some m => .ok { st with mem := m }
  | .stdOut =>
    match readCell st.mem (st.memPtr + ins.offset) with
    | none => .fail .outOfBounds
    | some cell => .ok { st with output := st.output ++ [cell] }
  | .setVal =>
    match writeCell st.mem (st.memPtr + ins.offset) (asU8 ins.val) with
    | none => .fail .outOfBounds
    | some m => .ok { st with mem := m }
  | .scanTo =>
    match scanLoop st.mem st.memPtr ins.val fuel 0 with
    | .ok acc => .ok { st with memPtr := st.memPtr + acc }
    | .fail e => .fail e
    | .more => .more

/-- The fetch-decode-execute loop: halt when the instruction pointer
reaches the program length; otherwise dispatch and then increment the
instruction pointer by one (also after a taken jump, exactly as the
source increments after the `match`). -/
def run (prog : List BfInstruction) : Nat → ExecState → RunRes ExecState
  | 0, _ => .more
  | fuel + 1, st =>
    match prog.get? st.insPtr with
    | none => .ok st
    | some ins =>
      match execIns ins fuel st with
      | .ok st' => run prog fuel { st' with insPtr := st'.insPtr + 1 }
      | .fail e => .fail e
      | .more => .more

/-- Fresh execution state: zeroed tape, both pointers at 0, no output. -/
def initState (inputQueue : List Char) (stdinBytes : List Nat) : ExecState :=
  { mem := fun _ => 0
    memPtr := 0
    insPtr := 0
    inputQueue := inputQueue
    stdinBytes := stdinBytes
    output := [] }

/-- Compile and run a source text. -/
def runSrc (level : Nat) (src : List Char) (fuel : Nat)
    (inputQueue : List Char) (stdinBytes : List Nat) :
    Except String (RunRes ExecState) :=
  (compile level src).map (fun prog => run prog fuel (initState inputQueue stdinBytes))

/-- The output bytes of a completed run. -/
def outputOf : Except String (RunRes ExecState) → Option (List Nat)
  | .ok (.ok st) => some st.output
  | _ => none

/-- A tape cell of a normally finished dispatch. -/
def resCell (r : RunRes ExecState) (a : Nat) : Option Nat :=
  match r with
  | .ok st => some (st.mem a)
  | _ => none

/-- Modelled from the spec (§4.4, §8): the naive pointer-move loop that a
scan instruction replaces — repeatedly test the cell at the data pointer
and advance the pointer by the stride until the cell is zero.  This is the
comparator for the scan-equivalence refinement claim; it is not code of
the repository. -/
def naiveScanSpec (mem : Nat → Nat) (v : Int) : Nat → Int → RunRes Int
  | 0, _ => .more
  | fuel + 1, dp =>
    match readCell mem dp with
    | none => .fail .outOfBounds
    | some cell =>
      if cell = 0 then .ok dp else naiveScanSpec mem v fuel (dp + v)

/-- Does the stream decode a close bracket at jump-stack depth zero?  The
depth is tracked exactly as the assembler's stack length evolves. -/
def hasUnderflow : List Char → Nat → Bool
  | [], _ => false
  | c :: rest, d =>
    match tryFromChar c with
    | .ok instr =>
      if instr.cmd = .jumpBack then decide (d = 0) || hasUnderflow rest (d - 1)
      else if instr.cmd = .jumpTo then hasUnderflow rest (d + 1)
      else hasUnderflow rest d
    | .error _ => hasUnderflow rest d

/-- Proper nesting of the decoded bracket symbols of a stream, tracked by
depth: every close sees a positive depth and the stream ends at depth
zero. -/
def nestingOkAux : List Char → Nat → Bool
  | [], d => decide (d = 0)
  | c :: rest, d =>
    match tryFromChar c with
    | .ok instr =>
      if instr.cmd = .jumpTo then nestingOkAux rest (d + 1)
      else if instr.cmd = .jumpBack then decide (0 < d) && nestingOkAux rest (d - 1)
      else nestingOkAux rest d
    | .error _ => nestingOkAux rest d

/-- A properly nested symbol stream. -/
def nestingOk (cs : List Char) : Bool := nestingOkAux cs 0

/-- Canonical bracket matching over the command sequence of a program:
scan left to right with a stack of pending open indices, pairing each
close with the most recent open.  This is the standard nesting-based
notion of which open "matches" which close, defined on the program alone,
independently of the values the assembler stores. -/
def jumpPairsAux : List BfCommand → Nat → List Nat → List (Nat × Nat) →
    List (Nat × Nat) × List Nat
  | [], _, stack, pairs => (pairs, stack)
  | c :: rest, idx, stack, pairs =>
    match c with
    | .jumpTo => jumpPairsAux rest (idx + 1) (idx :: stack) pairs
    | .jumpBack =>
      match stack with
      | [] => jumpPairsAux rest (idx + 1) [] pairs
      | x :: s => jumpPairsAux rest (idx + 1) s ((x, idx) :: pairs)
    | _ => jumpPairsAux rest (idx + 1) stack pairs

/-- The matched (open index, close index) pairs of a program. -/
def jumpPairs (prog : List BfInstruction) : List (Nat × Nat) :=
  (jumpPairsAux (prog.map (·.cmd)) 0 [] []).1

/-- Invariant of the assembly loop: the canonical matcher run over the
commands emitted so far has exactly the assembler's jump stack as its
pending-open stack; pending opens are unresolved (`val = -1`); matched
pairs point mutually at each other; and every jump instruction emitted so
far is either pending or matched. -/
structure AsmInv (ins : List BfInstruction) (stk : List Nat) : Prop where
  stackEq : (jumpPairsAux (ins.map (·.cmd)) 0 [] []).2 = stk
  stackNodup : stk.Nodup
  stackEntry : ∀ s ∈ stk, ins.get? s = some ⟨.jumpTo, -1, 0⟩
  pairEntry : ∀ p ∈ (jumpPairsAux (ins.map (·.cmd)) 0 [] []).1,
    ins.get? p.1 = some ⟨.jumpTo, (p.2 : Int), 0⟩ ∧
    ins.get? p.2 = some ⟨.jumpBack, (p.1 : Int), 0⟩
  openCover : ∀ j v, ins.get? j = some v → v.cmd = .jumpTo →
    j ∈ stk ∨ ∃ k, (j, k) ∈ (jumpPairsAux (ins.map (·.cmd)) 0 [] []).1
  closeCover : ∀ k v, ins.get? k = some v → v.cmd = .jumpBack →
    ∃ j, (j, k) ∈ (jumpPairsAux (ins.map (·.cmd)) 0 [] []).1

/-- A bracketed loop of `n` copies of the character `c`. -/
def loopOf (c : Char) (n : Nat) : List Char :=
  '[' :: (List.replicate n c ++ [']'])

/-- The program `+[>>>>>>>>>>>>>>>>>>>>>>>>>>].` (26 pointer-right
symbols): set cell 0 to 1, scan right in strides of 26, then output the
cell at the data pointer. -/
def srcScan26 : List Char :=
  '+' :: '[' :: (List.replicate 26 '>' ++ [']', '.'])

/-- Tape holding 7 in cell 1 and 0 elsewhere. -/
def c5Mem : Nat → Nat := fun a => if a = 1 then 7 else 0

/-- Executor state over `c5Mem` with both pointers at 0. -/
def c5State : ExecState := { initState [] [] with mem := c5Mem }

/-- Tape holding 1 in cells 0 and 1 and 0 elsewhere. -/
def c7Mem : Nat → Nat := fun a => if a < 2 then 1 else 0

/-- Executor state over `c7Mem` with both pointers at 0. -/
def c7State : ExecState := { initState [] [] with mem := c7Mem }

/-! ## Theorems -/

/-! ### Helper lemmas about the scan rewrite -/

theorem runLen_replicate (c d : Char) (n : Nat) (l : List Char) (h : ¬ d = c) :
    runLen c (List.replicate n c ++ d :: l) = n := by
  induction n with
  | zero => simp [runLen, h]
  | succ k ih => simp [List.replicate_succ, runLen, ih]

theorem replaceScanGo_no_open (inner starter : Char) :
    ∀ (fuel : Nat) (l : List Char), '[' ∉ l →
      replaceScanGo inner starter fuel l = l := by
  intro fuel
  induction fuel with
  | zero => intro l _; rfl
  | succ k ih =>
    intro l hl
    cases l with
    | nil => rfl
    | cons x rest =>
      have hx : ¬ x = '[' := fun hh => hl (by simp [hh])
      have hr : '[' ∉ rest := fun hh => hl (List.mem_cons_of_mem x hh)
      simp only [replaceScanGo]
      rw [if_neg hx, ih rest hr]

theorem replaceScan_long_run (inner starter : Char) (n : Nat)
    (hio : ¬ inner = '[') (hic : ¬ (']' : Char) = inner) (h : 28 ≤ n) :
    replaceScan inner starter (loopOf inner n) = loopOf inner n := by
  have hrest : '[' ∉ List.replicate n inner ++ [']'] := by
    intro hm
    rcases List.mem_append.1 hm with hm | hm
    · exact hio (List.eq_of_mem_replicate hm).symm
    · simp only [List.mem_singleton] at hm
      exact absurd hm (by decide)
  have hlen : runLen inner (List.replicate n inner ++ [']']) = n :=
    runLen_replicate inner ']' n [] hic
  have hL : (loopOf inner n).length = (n + 1) + 1 := by
    simp [loopOf]
  unfold replaceScan
  rw [hL]
  show replaceScanGo inner starter ((n + 1) + 1)
      ('[' :: (List.replicate n inner ++ [']'])) = _
  simp only [replaceScanGo, hlen]
  rw [if_pos trivial, if_neg (by omega : ¬ (1 ≤ n ∧ n ≤ 27 ∧
    (List.replicate n inner ++ [']']).get? n = some ']'))]
  rw [replaceScanGo_no_open inner starter (n + 1) _ hrest]
  rfl

/-- C2 counterexample: at repeat count 26 the rewrite does fire and emits
the character with code 97 + 26 = 123 (`{`) resp. 65 + 26 = 91 (`[`), but
neither decodes to a scan instruction at assembly time: the lowercase-side
character fails decoding entirely, and the uppercase-side character is
reparsed as a loop-open.  This refutes the claim's statement for
n = 26 (and likewise n = 27). -/
theorem c2_scan26_not_scan_instruction :
    replaceScan '<' 'a' (loopOf '<' 26) = [Char.ofNat (97 + 26)] ∧
    tryFromChar (Char.ofNat (97 + 26)) = .error "Unknown Instruction" ∧
    replaceScan '>' 'A' (loopOf '>' 26) = [Char.ofNat (65 + 26)] ∧
    tryFromChar (Char.ofNat (65 + 26)) = .ok ⟨.jumpTo, -1, 0⟩ := by
  refine ⟨by decide, by decide, by decide, by decide⟩

/-- C2 amended: for every repeat count 1 ≤ n ≤ 27 the optimizer rewrites
`[` followed by n pointer-left symbols and `]` into the single character
with code 97 + n (base letter `a` plus n), and symmetrically n
pointer-right symbols into the character with code 65 + n; that character
decodes at assembly time to a scan instruction with stride −n
(respectively +n) only for 1 ≤ n ≤ 25 — for n = 26 the characters are
`{` (decode failure, silently dropped) and `[` (reparsed as a loop-open),
and for n = 27 they are `|` and `\`, both decode failures.  Loops with 28
or more repeats are left unrewritten. -/
theorem c2_scan_rewrite_amended (n : Nat) (h1 : 1 ≤ n) :
    (n ≤ 27 →
      replaceScan '<' 'a' (loopOf '<' n) = [Char.ofNat (97 + n)] ∧
      replaceScan '>' 'A' (loopOf '>' n) = [Char.ofNat (65 + n)]) ∧
    (n ≤ 25 →
      tryFromChar (Char.ofNat (97 + n)) = .ok ⟨.scanTo, -(n : Int), 0⟩ ∧
      tryFromChar (Char.ofNat (65 + n)) = .ok ⟨.scanTo, (n : Int), 0⟩) ∧
    (n = 26 →
      tryFromChar (Char.ofNat (97 + n)) = .error "Unknown Instruction" ∧
      tryFromChar (Char.ofNat (65 + n)) = .ok ⟨.jumpTo, -1, 0⟩) ∧
    (n = 27 →
      tryFromChar (Char.ofNat (97 + n)) = .error "Unknown Instruction" ∧
      tryFromChar (Char.ofNat (65 + n)) = .error "Unknown Instruction") ∧
    (28 ≤ n →
      replaceScan '<' 'a' (loopOf '<' n) = loopOf '<' n ∧
      replaceScan '>' 'A' (loopOf '>' n) = loopOf '>' n) := by
  rcases le_or_lt n 27 with hle | hgt
  · interval_cases n <;> exact (by decide)
  · refine ⟨fun hh => absurd hh (by omega), fun hh => absurd hh (by omega),
      fun hh => absurd hh (by omega), fun hh => absurd hh (by omega), fun _ => ?_⟩
    exact ⟨replaceScan_long_run '<' 'a' n (by decide) (by decide) (by omega),
      replaceScan_long_run '>' 'A' n (by decide) (by decide) (by omega)⟩

/-- Witness for C2 amended, at n = 3: the rewrite yields the characters
`d` and `D`, which decode to scans with strides −3 and +3. -/
theorem c2_scan_rewrite_witness :
    ((3 : Nat) ≤ 27 →
      replaceScan '<' 'a' (loopOf '<' 3) = [Char.ofNat (97 + 3)] ∧
      replaceScan '>' 'A' (loopOf '>' 3) = [Char.ofNat (65 + 3)]) ∧
    ((3 : Nat) ≤ 25 →
      tryFromChar (Char.ofNat (97 + 3)) = .ok ⟨.scanTo, -((3 : Nat) : Int), 0⟩ ∧
      tryFromChar (Char.ofNat (65 + 3)) = .ok ⟨.scanTo, ((3 : Nat) : Int), 0⟩) ∧
    ((3 : Nat) = 26 →
      tryFromChar (Char.ofNat (97 + 3)) = .error "Unknown Instruction" ∧
      tryFromChar (Char.ofNat (65 + 3)) = .ok ⟨.jumpTo, -1, 0⟩) ∧
    ((3 : Nat) = 27 →
      tryFromChar (Char.ofNat (97 + 3)) = .error "Unknown Instruction" ∧
      tryFromChar (Char.ofNat (65 + 3)) = .error "Unknown Instruction") ∧
    (28 ≤ (3 : Nat) →
      replaceScan '<' 'a' (loopOf '<' 3) = loopOf '<' 3 ∧
      replaceScan '>' 'A' (loopOf '>' 3) = loopOf '>' 3) :=
  c2_scan_rewrite_amended 3 (by decide)

/-! ### Helper lemmas about the assembler and executor -/

theorem except_ok_bind {ε α β : Type} (a : α) (f : α → Except ε β) :
    (Except.ok a >>= f) = f a := rfl

theorem except_error_bind {ε α β : Type} (e : ε) (f : α → Except ε β) :
    ((Except.error e : Except ε α) >>= f) = .error e := rfl

theorem asmStep_skip (level : Nat) (st : AsmState) (c : Char) (e : String)
    (htc : tryFromChar c = .error e) : asmStep level st c = .ok st := by
  simp [asmStep, htc]

theorem asmStep_close_nil (level : Nat) (st : AsmState) (c : Char)
    (instr : BfInstruction) (htc : tryFromChar c = .ok instr)
    (hjb : instr.cmd = .jumpBack) (hstk : st.2 = []) :
    asmStep level st c = .error "UnmatchedCloseBracket" := by
  simp [asmStep, htc, hjb, hstk]

theorem asmStep_close_cons (level : Nat) (st : AsmState) (c : Char)
    (instr : BfInstruction) (x : Nat) (jrest : List Nat)
    (htc : tryFromChar c = .ok instr) (hjb : instr.cmd = .jumpBack)
    (hstk : st.2 = x :: jrest) :
    asmStep level st c = .ok
      (st.1.set x (BfInstruction.new .jumpTo (st.1.length : Int)) ++
        [⟨.jumpBack, (x : Int), instr.offset⟩], jrest) := by
  simp [asmStep, htc, hjb, hstk]

theorem asmStep_open (level : Nat) (st : AsmState) (c : Char)
    (instr : BfInstruction) (htc : tryFromChar c = .ok instr)
    (hjt : instr.cmd = .jumpTo) :
    asmStep level st c = .ok (pushFuse level st.1 instr, st.1.length :: st.2) := by
  have hnb : ¬ instr.cmd = .jumpBack := by rw [hjt]; decide
  simp [asmStep, htc, hjt, hnb]

theorem asmStep_plain (level : Nat) (st : AsmState) (c : Char)
    (instr : BfInstruction) (htc : tryFromChar c = .ok instr)
    (hnb : ¬ instr.cmd = .jumpBack) (hnt : ¬ instr.cmd = .jumpTo) :
    asmStep level st c = .ok (pushFuse level st.1 instr, st.2) := by
  simp [asmStep, htc, hnb, hnt]

theorem foldlM_underflow (level : Nat) :
    ∀ (cs : List Char) (st : AsmState), hasUnderflow cs st.2.length = true →
      cs.foldlM (asmStep level) st = .error "UnmatchedCloseBracket" := by
  intro cs
  induction cs with
  | nil => intro st h; simp [hasUnderflow] at h
  | cons c rest ih =>
    intro st h
    rw [List.foldlM_cons]
    cases htc : tryFromChar c with
    | error e =>
      rw [asmStep_skip level st c e htc, except_ok_bind]
      apply ih
      simpa [hasUnderflow, htc] using h
    | ok instr =>
      by_cases hjb : instr.cmd = .jumpBack
      · cases hstk : st.2 with
        | nil =>
          rw [asmStep_close_nil level st c instr htc hjb hstk, except_error_bind]
        | cons x jrest =>
          rw [asmStep_close_cons level st c instr x jrest htc hjb hstk, except_ok_bind]
          apply ih
          simpa [hasUnderflow, htc, hjb, hstk] using h
      · by_cases hjt : instr.cmd = .jumpTo
        · rw [asmStep_open level st c instr htc hjt, except_ok_bind]
          apply ih
          simpa [hasUnderflow, htc, hjb, hjt] using h
        · rw [asmStep_plain level st c instr htc hjb hjt, except_ok_bind]
          apply ih
          simpa [hasUnderflow, htc, hjb, hjt] using h

/-! ### Helper lemmas for jump resolution (C4) -/

theorem tryFromChar_inv (c : Char) (instr : BfInstruction)
    (h : tryFromChar c = .ok instr) :
    instr.offset = 0 ∧ (instr.cmd = .jumpTo → instr = ⟨.jumpTo, -1, 0⟩) := by
  unfold tryFromChar at h
  by_cases h1 : c = '<'
  · rw [if_pos h1] at h; injection h with h'; subst h'
    exact ⟨rfl, fun hh => nomatch hh⟩
  rw [if_neg h1] at h
  by_cases h2 : c = '>'
  · rw [if_pos h2] at h; injection h with h'; subst h'
    exact ⟨rfl, fun hh => nomatch hh⟩
  rw [if_neg h2] at h
  by_cases h3 : c = '+'
  · rw [if_pos h3] at h; injection h with h'; subst h'
    exact ⟨rfl, fun hh => nomatch hh⟩
  rw [if_neg h3] at h
  by_cases h4 : c = '-'
  · rw [if_pos h4] at h; injection h with h'; subst h'
    exact ⟨rfl, fun hh => nomatch hh⟩
  rw [if_neg h4] at h
  by_cases h5 : c = '['
  · rw [if_pos h5] at h; injection h with h'; subst h'
    exact ⟨rfl, fun _ => rfl⟩
  rw [if_neg h5] at h
  by_cases h6 : c = ']'
  · rw [if_pos h6] at h; injection h with h'; subst h'
    exact ⟨rfl, fun hh => nomatch hh⟩
  rw [if_neg h6] at h
  by_cases h7 : c = '.'
  · rw [if_pos h7] at h; injection h with h'; subst h'
    exact ⟨rfl, fun hh => nomatch hh⟩
  rw [if_neg h7] at h
  by_cases h8 : c = ','
  · rw [if_pos h8] at h; injection h with h'; subst h'
    exact ⟨rfl, fun hh => nomatch hh⟩
  rw [if_neg h8] at h
  by_cases h9 : c = '='
  · rw [if_pos h9] at h; injection h with h'; subst h'
    exact ⟨rfl, fun hh => nomatch hh⟩
  rw [if_neg h9] at h
  by_cases h10 : isAsciiLowercase c = true
  · rw [if_pos h10] at h; injection h with h'; subst h'
    exact ⟨rfl, fun hh => nomatch hh⟩
  rw [if_neg h10] at h
  by_cases h11 : isAsciiUppercase c = true
  · rw [if_pos h11] at h; injection h with h'; subst h'
    exact ⟨rfl, fun hh => nomatch hh⟩
  rw [if_neg h11] at h
  exact Except.noConfusion h

theorem tryFromChar_offset (c : Char) (instr : BfInstruction)
    (h : tryFromChar c = .ok instr) : instr.offset = 0 :=
  (tryFromChar_inv c instr h).1

theorem tryFromChar_open_eq (c : Char) (instr : BfInstruction)
    (h : tryFromChar c = .ok instr) (hc : instr.cmd = .jumpTo) :
    instr = ⟨.jumpTo, -1, 0⟩ :=
  (tryFromChar_inv c instr h).2 hc

theorem jumpPairsAux_append (l1 l2 : List BfCommand) :
    ∀ (idx : Nat) (stack : List Nat) (pairs : List (Nat × Nat)),
      jumpPairsAux (l1 ++ l2) idx stack pairs =
        jumpPairsAux l2 (idx + l1.length)
          (jumpPairsAux l1 idx stack pairs).2 (jumpPairsAux l1 idx stack pairs).1 := by
  induction l1 with
  | nil =>
    intro idx stack pairs
    simp [jumpPairsAux]
  | cons c rest ih =>
    intro idx stack pairs
    have harith : idx + (rest.length + 1) = (idx + 1) + rest.length := by omega
    cases c with
    | jumpTo =>
      simp only [List.cons_append, jumpPairsAux, List.length_cons, harith]
      exact ih (idx + 1) (idx :: stack) pairs
    | jumpBack =>
      cases stack with
      | nil =>
        simp only [List.cons_append, jumpPairsAux, List.length_cons, harith]
        exact ih (idx + 1) [] pairs
      | cons x s =>
        simp only [List.cons_append, jumpPairsAux, List.length_cons, harith]
        exact ih (idx + 1) s ((x, idx) :: pairs)
    | incRef | incVal | scanTo | setVal | stdIn | stdOut =>
      simp only [List.cons_append, jumpPairsAux, List.length_cons, harith]
      exact ih (idx + 1) stack pairs

theorem jumpPairsAux_single_plain (c : BfCommand) (idx : Nat) (stack : List Nat)
    (pairs : List (Nat × Nat)) (h1 : ¬ c = .jumpTo) (h2 : ¬ c = .jumpBack) :
    jumpPairsAux [c] idx stack pairs = (pairs, stack) := by
  cases c <;> simp_all [jumpPairsAux]

theorem jumpPairsAux_single_open (idx : Nat) (stack : List Nat)
    (pairs : List (Nat × Nat)) :
    jumpPairsAux [.jumpTo] idx stack pairs = (pairs, idx :: stack) := by
  simp [jumpPairsAux]

theorem jumpPairsAux_single_close (idx : Nat) (x : Nat) (s : List Nat)
    (pairs : List (Nat × Nat)) :
    jumpPairsAux [.jumpBack] idx (x :: s) pairs = ((x, idx) :: pairs, s) := by
  simp [jumpPairsAux]

theorem map_cmd_set (ins : List BfInstruction) (x : Nat) (v w : BfInstruction)
    (hx : ins.get? x = some w) (hc : v.cmd = w.cmd) :
    (ins.set x v).map (·.cmd) = ins.map (·.cmd) := by
  rw [List.map_set]
  apply List.ext_get?_iff.2
  intro n
  by_cases hn : n = x
  · subst hn
    rw [List.get?_set_eq_of_lt]
    · rw [List.get?_map, hx]
      simp [hc]
    · rw [List.length_map]
      exact (List.get?_eq_some.1 hx).1
  · exact List.get?_set_ne _ _ (fun hh => hn hh.symm)

theorem jumpPairs_state_snoc_open (ins : List BfInstruction) :
    jumpPairsAux ((ins ++ [(⟨.jumpTo, -1, 0⟩ : BfInstruction)]).map (·.cmd)) 0 [] [] =
      ((jumpPairsAux (ins.map (·.cmd)) 0 [] []).1,
        ins.length :: (jumpPairsAux (ins.map (·.cmd)) 0 [] []).2) := by
  rw [List.map_append, jumpPairsAux_append]
  show jumpPairsAux [BfCommand.jumpTo] (0 + (ins.map (·.cmd)).length) _ _ = _
  rw [jumpPairsAux_single_open]
  simp [List.length_map]

theorem jumpPairs_state_snoc_plain (ins : List BfInstruction) (instr : BfInstruction)
    (h1 : ¬ instr.cmd = .jumpTo) (h2 : ¬ instr.cmd = .jumpBack) :
    jumpPairsAux ((ins ++ [instr]).map (·.cmd)) 0 [] [] =
      jumpPairsAux (ins.map (·.cmd)) 0 [] [] := by
  rw [List.map_append, jumpPairsAux_append]
  show jumpPairsAux [instr.cmd] _ _ _ = _
  rw [jumpPairsAux_single_plain instr.cmd _ _ _ h1 h2]

theorem pushFuse_not_fusable (level : Nat) (ins : List BfInstruction)
    (instr : BfInstruction) (h : ¬ (instr.cmd = .incRef ∨ instr.cmd = .incVal)) :
    pushFuse level ins instr = ins ++ [instr] := by
  unfold pushFuse
  rw [if_neg (fun hc => h hc.2.2)]

theorem pushFuse_cases (level : Nat) (ins : List BfInstruction) (instr : BfInstruction) :
    pushFuse level ins instr = ins ++ [instr] ∨
    ∃ last, ins.get? (ins.length - 1) = some last ∧ last.cmd = instr.cmd ∧
      (instr.cmd = .incRef ∨ instr.cmd = .incVal) ∧ 0 < ins.length ∧
      pushFuse level ins instr =
        ins.set (ins.length - 1)
          ⟨last.cmd, last.val + instr.val, last.offset + instr.offset⟩ := by
  by_cases hcond : 1 < level ∧ 0 < ins.length ∧ (instr.cmd = .incRef ∨ instr.cmd = .incVal)
  · rcases hg : ins.get? (ins.length - 1) with _ | last
    · left
      unfold pushFuse
      rw [if_pos hcond, hg]
    · by_cases hl : last.cmd = instr.cmd
      · right
        refine ⟨last, rfl, hl, hcond.2.2, hcond.2.1, ?_⟩
        unfold pushFuse
        rw [if_pos hcond, hg]
        change (if last.cmd = instr.cmd then _ else _) = _
        rw [if_pos hl]
      · left
        unfold pushFuse
        rw [if_pos hcond, hg]
        change (if last.cmd = instr.cmd then _ else _) = _
        rw [if_neg hl]
  · left
    unfold pushFuse
    rw [if_neg hcond]

theorem get?_concat_of_length {α : Type} (l : List α) (b : α) (n : Nat)
    (h : l.length = n) : (l ++ [b]).get? n = some b := by
  subst h
  exact List.get?_concat_length l b

theorem asmInv_nil : AsmInv [] [] := by
  refine ⟨rfl, List.nodup_nil, ?_, ?_, ?_, ?_⟩
  · intro s hs
    exact absurd hs (List.not_mem_nil s)
  · intro p hp
    exact absurd hp (List.not_mem_nil p)
  · intro j v hj hv
    rw [List.get?_nil] at hj
    exact Option.noConfusion hj
  · intro k v hk hv
    rw [List.get?_nil] at hk
    exact Option.noConfusion hk

theorem inv_step_open (ins : List BfInstruction) (stk : List Nat)
    (hinv : AsmInv ins stk) :
    AsmInv (ins ++ [(⟨.jumpTo, -1, 0⟩ : BfInstruction)]) (ins.length :: stk) := by
  obtain ⟨hse, hnd, hent, hpair, hoc, hcc⟩ := hinv
  have hms := jumpPairs_state_snoc_open ins
  refine ⟨?_, ?_, ?_, ?_, ?_, ?_⟩
  · rw [hms]
    show ins.length :: (jumpPairsAux (ins.map (·.cmd)) 0 [] []).2 = ins.length :: stk
    rw [hse]
  · refine List.nodup_cons.2 ⟨?_, hnd⟩
    intro hmem
    have hlt := (List.get?_eq_some.1 (hent _ hmem)).1
    omega
  · intro s hs
    rcases List.mem_cons.1 hs with hs | hs
    · subst hs
      exact List.get?_concat_length ins _
    · have h1 := hent s hs
      have hlt := (List.get?_eq_some.1 h1).1
      rw [List.get?_append hlt]
      exact h1
  · intro p hp
    rw [hms] at hp
    have h2 := hpair p hp
    have l1 := (List.get?_eq_some.1 h2.1).1
    have l2 := (List.get?_eq_some.1 h2.2).1
    exact ⟨by rw [List.get?_append l1]; exact h2.1,
           by rw [List.get?_append l2]; exact h2.2⟩
  · intro j v hj hv
    by_cases hlt : j < ins.length
    · rw [List.get?_append hlt] at hj
      rcases hoc j v hj hv with hin | ⟨k, hk⟩
      · exact Or.inl (List.mem_cons_of_mem _ hin)
      · refine Or.inr ⟨k, ?_⟩
        rw [hms]
        exact hk
    · refine Or.inl ?_
      have hjl := (List.get?_eq_some.1 hj).1
      have hje : j = ins.length := by
        simp only [List.length_append, List.length_cons, List.length_nil] at hjl
        omega
      rw [hje]
      exact List.mem_cons_self _ _
  · intro k v hk hv
    by_cases hlt : k < ins.length
    · rw [List.get?_append hlt] at hk
      obtain ⟨j, hj⟩ := hcc k v hk hv
      refine ⟨j, ?_⟩
      rw [hms]
      exact hj
    · have hkl := (List.get?_eq_some.1 hk).1
      have hke : k = ins.length := by
        simp only [List.length_append, List.length_cons, List.length_nil] at hkl
        omega
      subst hke
      rw [List.get?_concat_length] at hk
      injection hk with hk
      have h5 : BfCommand.jumpTo = BfCommand.jumpBack := by
        rw [← hk] at hv
        exact hv
      exact BfCommand.noConfusion h5

theorem inv_step_plain (level : Nat) (ins : List BfInstruction) (stk : List Nat)
    (instr : BfInstruction) (h1 : ¬ instr.cmd = .jumpTo) (h2 : ¬ instr.cmd = .jumpBack)
    (hinv : AsmInv ins stk) :
    AsmInv (pushFuse level ins instr) stk := by
  obtain ⟨hse, hnd, hent, hpair, hoc, hcc⟩ := hinv
  rcases pushFuse_cases level ins instr with hpf | ⟨last, hg, hlc, hfus, hlen, hpf⟩
  · rw [hpf]
    have hms := jumpPairs_state_snoc_plain ins instr h1 h2
    refine ⟨?_, hnd, ?_, ?_, ?_, ?_⟩
    · rw [hms]
      exact hse
    · intro s hs
      have h3 := hent s hs
      rw [List.get?_append (List.get?_eq_some.1 h3).1]
      exact h3
    · intro p hp
      rw [hms] at hp
      have h3 := hpair p hp
      exact ⟨by rw [List.get?_append (List.get?_eq_some.1 h3.1).1]; exact h3.1,
             by rw [List.get?_append (List.get?_eq_some.1 h3.2).1]; exact h3.2⟩
    · intro j v hj hv
      by_cases hlt : j < ins.length
      · rw [List.get?_append hlt] at hj
        rcases hoc j v hj hv with hin | ⟨k, hk⟩
        · exact Or.inl hin
        · exact Or.inr ⟨k, by rw [hms]; exact hk⟩
      · have hjl := (List.get?_eq_some.1 hj).1
        have hje : j = ins.length := by
          simp only [List.length_append, List.length_cons, List.length_nil] at hjl
          omega
        subst hje
        rw [List.get?_concat_length] at hj
        injection hj with hj
        rw [← hj] at hv
        exact absurd hv h1
    · intro k v hk hv
      by_cases hlt : k < ins.length
      · rw [List.get?_append hlt] at hk
        obtain ⟨j, hj⟩ := hcc k v hk hv
        exact ⟨j, by rw [hms]; exact hj⟩
      · have hkl := (List.get?_eq_some.1 hk).1
        have hke : k = ins.length := by
          simp only [List.length_append, List.length_cons, List.length_nil] at hkl
          omega
        subst hke
        rw [List.get?_concat_length] at hk
        injection hk with hk
        rw [← hk] at hv
        exact absurd hv h2
  · rw [hpf]
    have hi0lt : ins.length - 1 < ins.length := by omega
    have hlnj : ¬ last.cmd = .jumpTo ∧ ¬ last.cmd = .jumpBack := by
      rcases hfus with hf | hf <;> rw [hlc, hf] <;> exact ⟨by decide, by decide⟩
    have hmap : (ins.set (ins.length - 1)
        (⟨last.cmd, last.val + instr.val, last.offset + instr.offset⟩ :
          BfInstruction)).map (·.cmd) = ins.map (·.cmd) :=
      map_cmd_set ins (ins.length - 1) _ last hg rfl
    have hget : ∀ (n : Nat) (w : BfInstruction), ¬ w.cmd = last.cmd →
        ((ins.set (ins.length - 1)
          (⟨last.cmd, last.val + instr.val, last.offset + instr.offset⟩ :
            BfInstruction)).get? n = some w ↔ ins.get? n = some w) := by
      intro n w hw
      by_cases hn : n = ins.length - 1
      · subst hn
        rw [List.get?_set_eq_of_lt _ hi0lt, hg]
        constructor
        · intro hh
          injection hh with hh
          exact absurd (by rw [← hh]) hw
        · intro hh
          injection hh with hh
          exact absurd (by rw [← hh]) hw
      · rw [List.get?_set_ne _ _ (fun hh => hn hh.symm)]
    refine ⟨?_, hnd, ?_, ?_, ?_, ?_⟩
    · rw [hmap]
      exact hse
    · intro s hs
      exact (hget s _ (fun hh => hlnj.1 hh.symm)).2 (hent s hs)
    · intro p hp
      rw [hmap] at hp
      have h3 := hpair p hp
      exact ⟨(hget p.1 _ (fun hh => hlnj.1 hh.symm)).2 h3.1,
             (hget p.2 _ (fun hh => hlnj.2 hh.symm)).2 h3.2⟩
    · intro j v hj hv
      have hj' : ins.get? j = some v := (hget j v (fun hh => hlnj.1 (hh ▸ hv))).1 hj
      rcases hoc j v hj' hv with hin | ⟨k, hk⟩
      · exact Or.inl hin
      · exact Or.inr ⟨k, by rw [hmap]; exact hk⟩
    · intro k v hk hv
      have hk' : ins.get? k = some v := (hget k v (fun hh => hlnj.2 (hh ▸ hv))).1 hk
      obtain ⟨j, hj⟩ := hcc k v hk' hv
      exact ⟨j, by rw [hmap]; exact hj⟩

theorem inv_step_close (ins : List BfInstruction) (x : Nat) (jrest : List Nat)
    (hinv : AsmInv ins (x :: jrest)) :
    AsmInv (ins.set x (BfInstruction.new .jumpTo (ins.length : Int)) ++
      [(⟨.jumpBack, (x : Int), 0⟩ : BfInstruction)]) jrest := by
  obtain ⟨hse, hnd, hent, hpair, hoc, hcc⟩ := hinv
  have hx : ins.get? x = some ⟨.jumpTo, -1, 0⟩ := hent x (List.mem_cons_self x jrest)
  have hxlt : x < ins.length := (List.get?_eq_some.1 hx).1
  have hxnm : x ∉ jrest := (List.nodup_cons.1 hnd).1
  have hmap : (ins.set x (BfInstruction.new .jumpTo (ins.length : Int))).map (·.cmd) =
      ins.map (·.cmd) := map_cmd_set ins x _ ⟨.jumpTo, -1, 0⟩ hx rfl
  have hL : (ins.set x (BfInstruction.new .jumpTo (ins.length : Int))).length =
      ins.length := by simp
  have hms : jumpPairsAux (((ins.set x (BfInstruction.new .jumpTo (ins.length : Int))) ++
      [(⟨.jumpBack, (x : Int), 0⟩ : BfInstruction)]).map (·.cmd)) 0 [] [] =
      ((x, ins.length) :: (jumpPairsAux (ins.map (·.cmd)) 0 [] []).1, jrest) := by
    rw [List.map_append, hmap, jumpPairsAux_append, hse]
    show jumpPairsAux [BfCommand.jumpBack] (0 + (ins.map (·.cmd)).length) (x :: jrest) _ = _
    rw [jumpPairsAux_single_close]
    simp [List.length_map]
  refine ⟨?_, (List.nodup_cons.1 hnd).2, ?_, ?_, ?_, ?_⟩
  · rw [hms]
  · intro s hs
    have h3 := hent s (List.mem_cons_of_mem x hs)
    have hslt := (List.get?_eq_some.1 h3).1
    have hsx : ¬ x = s := fun hh => hxnm (by rw [hh]; exact hs)
    rw [List.get?_append (by simpa using hslt), List.get?_set_ne _ _ hsx]
    exact h3
  · intro p hp
    rw [hms] at hp
    rcases List.mem_cons.1 hp with hp | hp
    · subst hp
      constructor
      · show (ins.set x (BfInstruction.new .jumpTo (ins.length : Int)) ++
          [(⟨.jumpBack, (x : Int), 0⟩ : BfInstruction)]).get? x =
          some ⟨.jumpTo, (ins.length : Int), 0⟩
        rw [List.get?_append (by simpa using hxlt), List.get?_set_eq_of_lt _ hxlt]
        rfl
      · show (ins.set x (BfInstruction.new .jumpTo (ins.length : Int)) ++
          [(⟨.jumpBack, (x : Int), 0⟩ : BfInstruction)]).get? ins.length =
          some ⟨.jumpBack, (x : Int), 0⟩
        exact get?_concat_of_length _ _ _ hL
    · have h3 := hpair p hp
      have hp1x : ¬ x = p.1 := by
        intro hh
        have h4 := h3.1
        rw [← hh, hx] at h4
        injection h4 with h4
        have h5 : (-1 : Int) = (p.2 : Int) := congrArg BfInstruction.val h4
        omega
      have hp2x : ¬ x = p.2 := by
        intro hh
        have h4 := h3.2
        rw [← hh, hx] at h4
        injection h4 with h4
        have h5 : BfCommand.jumpTo = BfCommand.jumpBack := congrArg BfInstruction.cmd h4
        exact BfCommand.noConfusion h5
      have l1 := (List.get?_eq_some.1 h3.1).1
      have l2 := (List.get?_eq_some.1 h3.2).1
      exact ⟨by rw [List.get?_append (by simpa using l1),
               List.get?_set_ne _ _ hp1x]; exact h3.1,
             by rw [List.get?_append (by simpa using l2),
               List.get?_set_ne _ _ hp2x]; exact h3.2⟩
  · intro j v hj hv
    by_cases hlt : j < ins.length
    · by_cases hjx : j = x
      · refine Or.inr ⟨ins.length, ?_⟩
        rw [hms, hjx]
        show (x, ins.length) ∈
          (x, ins.length) :: (jumpPairsAux (ins.map (·.cmd)) 0 [] []).1
        exact List.mem_cons_self _ _
      · rw [List.get?_append (by simpa using hlt),
          List.get?_set_ne _ _ (fun hh => hjx hh.symm)] at hj
        rcases hoc j v hj hv with hin | ⟨k, hk⟩
        · rcases List.mem_cons.1 hin with hh | hh
          · exact absurd hh hjx
          · exact Or.inl hh
        · refine Or.inr ⟨k, ?_⟩
          rw [hms]
          show (j, k) ∈
            (x, ins.length) :: (jumpPairsAux (ins.map (·.cmd)) 0 [] []).1
          exact List.mem_cons_of_mem _ hk
    · have hjl := (List.get?_eq_some.1 hj).1
      have hje : j = ins.length := by
        simp only [List.length_append, List.length_set, List.length_cons,
          List.length_nil] at hjl
        omega
      subst hje
      have hcl := get?_concat_of_length
        (ins.set x (BfInstruction.new .jumpTo (ins.length : Int)))
        (⟨.jumpBack, (x : Int), 0⟩ : BfInstruction) ins.length hL
      rw [hcl] at hj
      injection hj with hj
      have h5 : BfCommand.jumpBack = BfCommand.jumpTo := by
        rw [← hj] at hv
        exact hv
      exact BfCommand.noConfusion h5
  · intro k v hk hv
    by_cases hlt : k < ins.length
    · by_cases hkx : k = x
      · subst hkx
        rw [List.get?_append (by simpa using hlt), List.get?_set_eq_of_lt _ hlt] at hk
        injection hk with hk
        have h5 : BfCommand.jumpTo = BfCommand.jumpBack := by
          rw [← hk] at hv
          exact hv
        exact BfCommand.noConfusion h5
      · rw [List.get?_append (by simpa using hlt),
          List.get?_set_ne _ _ (fun hh => hkx hh.symm)] at hk
        obtain ⟨j, hj⟩ := hcc k v hk hv
        refine ⟨j, ?_⟩
        rw [hms]
        show (j, k) ∈
          (x, ins.length) :: (jumpPairsAux (ins.map (·.cmd)) 0 [] []).1
        exact List.mem_cons_of_mem _ hj
    · have hkl := (List.get?_eq_some.1 hk).1
      have hke : k = ins.length := by
        simp only [List.length_append, List.length_set, List.length_cons,
          List.length_nil] at hkl
        omega
      subst hke
      refine ⟨x, ?_⟩
      rw [hms]
      show (x, ins.length) ∈
        (x, ins.length) :: (jumpPairsAux (ins.map (·.cmd)) 0 [] []).1
      exact List.mem_cons_self _ _

theorem foldlM_nested (level : Nat) :
    ∀ (cs : List Char) (st : AsmState), AsmInv st.1 st.2 →
      nestingOkAux cs st.2.length = true →
      ∃ st', cs.foldlM (asmStep level) st = .ok st' ∧ st'.2 = [] ∧ AsmInv st'.1 st'.2 := by
  intro cs
  induction cs with
  | nil =>
    intro st hinv h
    have h0 : st.2.length = 0 := by simpa [nestingOkAux] using h
    exact ⟨st, rfl, List.length_eq_zero.1 h0, hinv⟩
  | cons c rest ih =>
    intro st hinv h
    rw [List.foldlM_cons]
    cases htc : tryFromChar c with
    | error e =>
      rw [asmStep_skip level st c e htc, except_ok_bind]
      exact ih st hinv (by simpa [nestingOkAux, htc] using h)
    | ok instr =>
      by_cases hjt : instr.cmd = .jumpTo
      · rw [asmStep_open level st c instr htc hjt, except_ok_bind]
        have hin : instr = ⟨.jumpTo, -1, 0⟩ := tryFromChar_open_eq c instr htc hjt
        have hpf : pushFuse level st.1 instr = st.1 ++ [instr] :=
          pushFuse_not_fusable level st.1 instr (by
            rw [hjt]
            rintro (hh | hh) <;> exact BfCommand.noConfusion hh)
        rw [hpf, hin]
        exact ih _ (inv_step_open st.1 st.2 hinv)
          (by simpa [nestingOkAux, htc, hjt] using h)
      · by_cases hjb : instr.cmd = .jumpBack
        · have hsplit : 0 < st.2.length ∧
              nestingOkAux rest (st.2.length - 1) = true := by
            have h' := h
            simp [nestingOkAux, htc, hjb, hjt] at h'
            exact h'
          cases hstk : st.2 with
          | nil =>
            rw [hstk] at hsplit
            simp at hsplit
          | cons x jrest =>
            rw [asmStep_close_cons level st c instr x jrest htc hjb hstk, except_ok_bind]
            have hoff : instr.offset = 0 := tryFromChar_offset c instr htc
            rw [hoff]
            rw [hstk] at hinv
            refine ih _ (inv_step_close st.1 x jrest hinv) ?_
            have h2 := hsplit.2
            rw [hstk] at h2
            simpa using h2
        · rw [asmStep_plain level st c instr htc hjb hjt, except_ok_bind]
          exact ih _ (inv_step_plain level st.1 st.2 instr hjt hjb hinv)
            (by simpa [nestingOkAux, htc, hjb, hjt] using h)

theorem scanLoop_naive (mem : Nat → Nat) (base v : Int) :
    ∀ (fuel : Nat) (acc : Int),
      naiveScanSpec mem v fuel (base + acc) =
        mapRes (fun r => base + r) (scanLoop mem base v fuel acc) := by
  intro fuel
  induction fuel with
  | zero => intro acc; rfl
  | succ k ih =>
    intro acc
    simp only [naiveScanSpec, scanLoop]
    cases hr : readCell mem (base + acc) with
    | none => rfl
    | some cell =>
      by_cases hc : cell = 0
      · simp [hc, mapRes]
      · simp only [if_neg hc]
        rw [add_assoc]
        exact ih (acc + v)

/-- C1: the claim that optimization level 0 and level ≥ 2 always produce
identical output fails on the code.  On the valid, terminating program
`+[>…>].` with 26 pointer-right symbols and empty input, the level-0 run
outputs the single byte 0 (cell 26 after the scan loop), while at level 2
the rewrite pass turns the 26-step scan loop into the character with code
65 + 26 = 91, which is `[` — so the loop body disappears, the open bracket
is reparsed as a bare loop-open, and the run outputs the byte 1 instead.
The two outputs differ, refuting the claimed equivalence. -/
theorem c1_optimizer_changes_observable_output :
    outputOf (runSrc 0 srcScan26 64 [] []) = some [0] ∧
    outputOf (runSrc 2 srcScan26 64 [] []) = some [1] ∧
    outputOf (runSrc 0 srcScan26 64 [] []) ≠ outputOf (runSrc 2 srcScan26 64 [] []) := by
  refine ⟨by decide, by decide, by decide⟩

/-- C3: the claim that an unmatched loop-open makes assembly fail is
violated by the code: the assembly loop never inspects the jump stack
after the stream ends.  On the stream `[`, assembly completes with a
non-empty jump stack and returns a one-instruction program whose
loop-open still carries the unresolved value −1. -/
theorem c3_unmatched_open_silently_accepted :
    assembleState 0 ['['] = .ok ([⟨.jumpTo, -1, 0⟩], [0]) ∧
    assemble 0 ['['] = .ok [⟨.jumpTo, -1, 0⟩] := by
  refine ⟨by decide, by decide⟩

/-- C4: for every properly nested symbol stream, assembly completes (with
an empty jump stack), and in the produced program every loop-open
(`JumpIfZero`) instruction's value is the index of its matching loop-close
(`JumpIfNonZero`) and that close's value is the index of the open, where
"matching" is the canonical nesting-based pairing `jumpPairs` of the
program's jump instructions; moreover every jump instruction belongs to
exactly such a mutually resolved pair. -/
theorem c4_jump_resolution (level : Nat) (cs : List Char)
    (h : nestingOk cs = true) :
    ∃ prog, assembleState level cs = .ok (prog, []) ∧
      (∀ p ∈ jumpPairs prog,
        prog.get? p.1 = some ⟨.jumpTo, (p.2 : Int), 0⟩ ∧
        prog.get? p.2 = some ⟨.jumpBack, (p.1 : Int), 0⟩) ∧
      (∀ j v, prog.get? j = some v → v.cmd = .jumpTo →
        ∃ k, (j, k) ∈ jumpPairs prog ∧ v.val = (k : Int)) ∧
      (∀ k v, prog.get? k = some v → v.cmd = .jumpBack →
        ∃ j, (j, k) ∈ jumpPairs prog ∧ v.val = (j : Int)) := by
  obtain ⟨st', hfold, hstk, hinv⟩ :=
    foldlM_nested level cs (([], []) : AsmState) asmInv_nil h
  obtain ⟨prog, stk⟩ := st'
  have hstk' : stk = [] := hstk
  subst hstk'
  have hinv' : AsmInv prog [] := hinv
  refine ⟨prog, hfold, ?_, ?_, ?_⟩
  · intro p hp
    exact hinv'.pairEntry p hp
  · intro j v hj hv
    rcases hinv'.openCover j v hj hv with hmem | ⟨k, hk⟩
    · exact absurd hmem (List.not_mem_nil j)
    · refine ⟨k, hk, ?_⟩
      have h2 : prog.get? j = some ⟨.jumpTo, (k : Int), 0⟩ :=
        (hinv'.pairEntry (j, k) hk).1
      rw [hj] at h2
      injection h2 with h2
      rw [h2]
  · intro k v hk hv
    obtain ⟨j, hj⟩ := hinv'.closeCover k v hk hv
    refine ⟨j, hj, ?_⟩
    have h2 : prog.get? k = some ⟨.jumpBack, (j : Int), 0⟩ :=
      (hinv'.pairEntry (j, k) hj).2
    rw [hk] at h2
    injection h2 with h2
    rw [h2]

/-- Witness for C4: the properly nested stream `[+]` at level 2. -/
theorem c4_jump_resolution_witness :
    ∃ prog, assembleState 2 ['[', '+', ']'] = .ok (prog, []) ∧
      (∀ p ∈ jumpPairs prog,
        prog.get? p.1 = some ⟨.jumpTo, (p.2 : Int), 0⟩ ∧
        prog.get? p.2 = some ⟨.jumpBack, (p.1 : Int), 0⟩) ∧
      (∀ j v, prog.get? j = some v → v.cmd = .jumpTo →
        ∃ k, (j, k) ∈ jumpPairs prog ∧ v.val = (k : Int)) ∧
      (∀ k v, prog.get? k = some v → v.cmd = .jumpBack →
        ∃ j, (j, k) ∈ jumpPairs prog ∧ v.val = (j : Int)) :=
  c4_jump_resolution 2 ['[', '+', ']'] (by decide)

/-- C5: the claim that `CellAdjust` adds its value to the cell at
(data pointer + offset) fails on the code: the `IncVal` arm reads the cell
at `mem_ptr + offset` but stores the sum at `mem_ptr`.  With value 5,
offset 1, data pointer 0 and a tape holding 7 in cell 1, the code leaves
cell 1 unchanged at 7 and overwrites cell 0 with 12. -/
theorem c5_adjust_writes_wrong_cell :
    resCell (execIns ⟨.incVal, 5, 1⟩ 0 c5State) 0 = some 12 ∧
    resCell (execIns ⟨.incVal, 5, 1⟩ 0 c5State) 1 = some 7 := by
  refine ⟨by decide, by decide⟩

/-- C6 counterexample: the filter does not return the subsequence of the
claimed alphabet.  The pipe character is outside the claimed alphabet yet
kept (the regex class contains literal pipes), while a letter and the
zero-set symbol `=` are dropped even though the claim includes them. -/
theorem c6_pipe_kept_letters_dropped :
    filterSrc ['|', 'a', '='] = ['|'] := by decide

/-- C6 amended: the symbol filter returns exactly the ordered subsequence
of characters drawn from the nine-character class of the regex — the
eight base symbols plus the literal pipe (`keptChar`); every other
character, including letters and the zero-set symbol, is dropped silently
and no error is raised. -/
theorem c6_filter_amended (t : List Char) :
    filterSrc t = t.filter keptChar ∧ (filterSrc t).Sublist t := by
  constructor
  · simp [filterSrc, nonSymbolMatch, Bool.not_not]
  · exact List.filter_sublist t

/-- C9: the tape has exactly 65535 zero-initialized cells; a pointer move
is rejected only when the resulting pointer is negative (an
`invalidAddress` failure), never for landing at or beyond 65535; and a
subsequent cell access at or beyond 65535 aborts the run with an
out-of-bounds failure rather than wrapping. -/
theorem c9_tape_bounds :
    tapeLen = 65535 ∧
    (∀ a, (initState [] []).mem a = 0) ∧
    (∀ (st : ExecState) (v off : Int) (fuel : Nat), ¬ st.memPtr + v < 0 →
      execIns ⟨.incRef, v, off⟩ fuel st = .ok { st with memPtr := st.memPtr + v }) ∧
    (∀ (st : ExecState) (v off : Int) (fuel : Nat), st.memPtr + v < 0 →
      execIns ⟨.incRef, v, off⟩ fuel st = .fail .invalidAddress) ∧
    (∀ (st : ExecState) (v off : Int) (fuel : Nat), (tapeLen : Int) ≤ st.memPtr + off →
      execIns ⟨.incVal, v, off⟩ fuel st = .fail .outOfBounds) := by
  refine ⟨rfl, fun _ => rfl, ?_, ?_, ?_⟩
  · intro st v off fuel h
    simp only [execIns]
    rw [if_neg h]
  · intro st v off fuel h
    simp only [execIns]
    rw [if_pos h]
  · intro st v off fuel h
    have hb : ¬ (0 ≤ st.memPtr + off ∧ st.memPtr + off < (tapeLen : Int)) := by
      simp only [tapeLen] at h ⊢; omega
    simp only [execIns, readCell]
    rw [if_neg hb]

/-- Witness for C9 at concrete inputs: moving the pointer to 70000 (past
the 65535-cell tape) succeeds, and the next cell access there fails. -/
theorem c9_tape_bounds_witness :
    execIns ⟨.incRef, 70000, 0⟩ 0 (initState [] []) =
      .ok { initState [] [] with memPtr := (initState [] []).memPtr + 70000 } ∧
    execIns ⟨.incVal, 1, 0⟩ 0 { initState [] [] with memPtr := 70000 } =
      .fail .outOfBounds := by
  exact ⟨c9_tape_bounds.2.2.1 (initState [] []) 70000 0 0 (by decide),
    c9_tape_bounds.2.2.2.2 { initState [] [] with memPtr := 70000 } 1 0 0 (by decide)⟩

/-- C10: when the pre-loaded input queue is empty and the live input
source yields no byte (end of input — the one-byte read succeeds reading
zero bytes, leaving the zeroed buffer), the `Input` instruction stores 0
at the cell (data pointer + offset) and the dispatch completes normally;
no input-unavailability failure exists on this path. -/
theorem c10_eof_writes_zero (st : ExecState) (v off : Int) (fuel : Nat)
    (hq : st.inputQueue = []) (hs : st.stdinBytes = [])
    (h0 : 0 ≤ st.memPtr + off) (h1 : st.memPtr + off < (tapeLen : Int)) :
    execIns ⟨.stdIn, v, off⟩ fuel st =
      .ok { st with
            mem := fun b => if b = (st.memPtr + off).toNat then 0 else st.mem b } := by
  simp only [execIns, hq, hs, writeCell]
  rw [if_pos ⟨h0, h1⟩]

/-- C7: whenever the naive pointer-move loop of the spec terminates on the
given tape with final data pointer `d`, executing a single `ScanTo`
instruction with the same stride against the same tape and start pointer
also finishes with the data pointer at `d` (the scan's local stride
accumulator traverses exactly the same addresses). -/
theorem c7_scan_equiv (st : ExecState) (v off d : Int) (fuel : Nat)
    (h : naiveScanSpec st.mem v fuel st.memPtr = .ok d) :
    execIns ⟨.scanTo, v, off⟩ fuel st = .ok { st with memPtr := d } := by
  have key := scanLoop_naive st.mem st.memPtr v fuel 0
  rw [add_zero] at key
  rw [h] at key
  simp only [execIns]
  cases hs : scanLoop st.mem st.memPtr v fuel 0 with
  | ok acc =>
    rw [hs] at key
    simp only [mapRes, RunRes.ok.injEq] at key
    rw [key]
  | fail e => rw [hs] at key; simp [mapRes] at key
  | more => rw [hs] at key; simp [mapRes] at key

/-- Witness for C7: on a tape with cells 0 and 1 holding 1, scanning with
stride +1 from pointer 0 lands on cell 2, as the naive loop does. -/
theorem c7_scan_equiv_witness :
    execIns ⟨.scanTo, 1, 0⟩ 5 c7State = .ok { c7State with memPtr := 2 } :=
  c7_scan_equiv c7State 1 0 2 5 (by decide)

/-- C8: whenever a close bracket is decoded while the jump stack is empty
(the stream has an underflow at depth zero), the assembly loop aborts with
the unmatched-close failure (the `unwrap` panic on the empty stack) and no
program is produced. -/
theorem c8_underflow_fails (level : Nat) (cs : List Char)
    (h : hasUnderflow cs 0 = true) :
    assemble level cs = .error "UnmatchedCloseBracket" := by
  unfold assemble assembleState
  rw [foldlM_underflow level cs ([], []) h]
  rfl

/-- Witness for C8: the single unmatched `]` fails assembly. -/
theorem c8_underflow_witness :
    assemble 0 [']'] = .error "UnmatchedCloseBracket" :=
  c8_underflow_fails 0 [']'] (by decide)

/-- Witness for C10: on the fresh state with no queued input and an
exhausted live source, `Input` writes 0 to cell 0 and succeeds. -/
theorem c10_eof_witness :
    execIns ⟨.stdIn, 0, 0⟩ 0 (initState [] []) =
      .ok { initState [] [] with
            mem := fun b =>
              if b = ((initState [] []).memPtr + 0).toNat then 0
              else (initState [] []).mem b } :=
  c10_eof_writes_zero (initState [] []) 0 0 0 rfl rfl (by decide) (by decide)

end Rbf
